import Mathlib

set_option maxRecDepth 1000000

/-!
Verification of the amethyst UI draw-order maintenance and text rasterization
pipeline (`src/amethyst_ui/src/pass.rs` and `src/amethyst_ui/src/text.rs`).

The embedding models `f32` values as an inductive `FVal` (NaN or an exact
rational), `u32`/`usize` arithmetic as `Nat` arithmetic with explicit
`% 2^32` / `% 2^64` where the source performs machine-width operations,
entity identifiers as naturals, the `BitSet` membership cache as a
`Finset ℕ`, and component storages as association lists / lookup functions.
Fallible operations (Rust panics: out-of-bounds indexing, `unwrap`) are
modelled by `Option`, `none` standing for a panic.
-/

/-- Model of an `f32` value: NaN, or an exact (finite) value.
This captures exactly the partial-order behaviour of `f32` that the
source relies on (`partial_cmp`, `>=`, `>`): any comparison involving
NaN is incomparable / false. -/
inductive FVal where
  | nan : FVal
  | val (q : ℚ) : FVal
deriving DecidableEq, Repr

/-- `f32::partial_cmp`: `none` iff either operand is NaN. -/
def fpcmp : FVal → FVal → Option Ordering
  | FVal.val a, FVal.val b =>
      some (if a < b then Ordering.lt else if b < a then Ordering.gt else Ordering.eq)
  | _, _ => none

/-- `f32` `>=` operator: false when either operand is NaN. -/
def fge : FVal → FVal → Bool
  | FVal.val a, FVal.val b => decide (b ≤ a)
  | _, _ => false

/-- `f32` `>` operator: false when either operand is NaN. -/
def fgt : FVal → FVal → Bool
  | FVal.val a, FVal.val b => decide (b < a)
  | _, _ => false

/-- Exact rational product of two finite values, NaN absorbing.  This is
NOT the source's `f32` multiplication (that is `fmul32` below, which
rounds); it is used only to state exact-product side conditions such as a
zero area `width * height == 0`. -/
def fmul : FVal → FVal → FVal
  | FVal.val a, FVal.val b => FVal.val (a * b)
  | _, _ => FVal.nan

/-- The comparison `2 ^ e ≤ n / d` on a positive fraction, stated in
natural-number arithmetic. -/
def pow2leRat (n d : ℕ) (e : ℤ) : Bool :=
  if 0 ≤ e then decide (d * 2 ^ e.toNat ≤ n) else decide (d ≤ n * 2 ^ (-e).toNat)

/-- Bounded downward search for `⌊log₂ (n / d)⌋` over the exponent range
`[-149, 128]` relevant to `f32`, returning -150 when `n / d < 2 ^ (-149)`.
Values beyond either end of the range need no exact exponent: tiny values
round to zero and huge values clamp at the largest finite `f32` (see
`round32pos`), whatever the precise exponent. -/
def log2floorAux (n d : ℕ) : ℕ → ℤ
  | 0 => -150
  | m + 1 => if pow2leRat n d ((m : ℤ) - 149) then (m : ℤ) - 149 else log2floorAux n d m

/-- `⌊log₂ (n / d)⌋` for a positive fraction, clamped to `[-150, 128]`. -/
def log2floorPos (n d : ℕ) : ℤ := log2floorAux n d 278

/-- Round the positive fraction `n / d` to the `f32` grid, as a
(significand, grid exponent) pair: the grid step in the binade
`2 ^ e ≤ n / d < 2 ^ (e + 1)` is `2 ^ (e - 23)` (24-bit significands),
floored at the subnormal step `2 ^ (-149)`; the significand is the nearest
integer to `(n / d) / 2 ^ k`, ties to even.  `N / D` is the scaled
fraction; `f` its integer part; `r2 < D`, `D < r2` and `r2 = D` are the
round-down, round-up and tie cases. -/
def round32num (n d : ℕ) : ℕ × ℤ :=
  let k := max (log2floorPos n d - 23) (-149)
  let N := n * 2 ^ (Int.toNat (-k))
  let D := d * 2 ^ (Int.toNat k)
  let f := N / D
  let r2 := 2 * (N % D)
  (if r2 < D then f else if D < r2 then f + 1 else if f % 2 = 0 then f else f + 1, k)

/-- The rational `m * 2 ^ k`. -/
def qOfSigExp (m : ℕ) (k : ℤ) : ℚ :=
  if 0 ≤ k then mkRat (Int.ofNat (m * 2 ^ k.toNat)) 1 else mkRat (Int.ofNat m) (2 ^ (-k).toNat)

/-- The largest finite `f32`, `(2 ^ 24 - 1) * 2 ^ 104`. -/
def maxF32 : ℚ := qOfSigExp (2 ^ 24 - 1) 104

/-- Round a positive rational to the nearest representable `f32` value
(ties to even).  A result beyond the largest finite `f32` would be
+infinity; the model has no infinity and clamps to the largest finite
value instead, which is interchangeable with +infinity for everything the
source does with such a value: the `as u32` / `as usize` casts saturate
identically on both. -/
def round32pos (n d : ℕ) : ℚ :=
  let p := round32num n d
  if (2 ^ 24 - 1) * 2 ^ 104 < p.1 * 2 ^ p.2.toNat then maxF32 else qOfSigExp p.1 p.2

/-- `f32` round-to-nearest-even of an exact rational value (rounding is
symmetric in sign). -/
def round32 (q : ℚ) : ℚ :=
  if q.num = 0 then 0
  else if 0 < q.num then round32pos q.num.toNat q.den
  else -(round32pos (-q.num).toNat q.den)

/-- `f32` multiplication as the source performs it: the exact rational
product rounded to the nearest representable `f32` value, ties to even;
NaN is absorbing. -/
def fmul32 : FVal → FVal → FVal
  | FVal.val a, FVal.val b => FVal.val (round32 (a * b))
  | _, _ => FVal.nan

/-- Rust float-to-unsigned-integer `as` cast semantics: NaN and negative
values go to 0, values beyond the cap saturate at the cap, and otherwise
the value is truncated toward zero. -/
def satTrunc (cap : ℕ) : FVal → ℕ
  | FVal.nan => 0
  | FVal.val q => min (Rat.floor q).toNat cap

/-- `as u32` cast of an `f32`. -/
def sat32 (f : FVal) : ℕ := satTrunc (2 ^ 32 - 1) f

/-- `as usize` cast of an `f32`. -/
def sat64 (f : FVal) : ℕ := satTrunc (2 ^ 64 - 1) f

/-- `UiTransform` component: position, size and depth key (all `f32`). -/
structure UiTransform where
  x : FVal
  y : FVal
  width : FVal
  height : FVal
  z : FVal
deriving DecidableEq, Repr

/-- The `ReadStorage<UiTransform>` of the ECS: an association list from
entity id to transform.  Iteration order of a `join` is the list order. -/
abbrev TransStorage := List (ℕ × UiTransform)

/-- `ui_transform.get(entity)`. -/
def lookupT (st : TransStorage) (e : ℕ) : Option UiTransform :=
  (st.find? (fun p => p.1 = e)).map Prod.snd

/-- The ids that currently hold a `UiTransform` (the `check()` bitset). -/
def keysList (st : TransStorage) : List ℕ := st.map Prod.fst

/-- The same id set as a `Finset`. -/
def keysFinset (st : TransStorage) : Finset ℕ := (keysList st).toFinset

/-- `CachedDrawOrder { cached: BitSet, cache: Vec<(f32, Entity)> }`. -/
structure CachedDrawOrder where
  cached : Finset ℕ
  cache : List (FVal × ℕ)
deriving DecidableEq

/-- The state `DrawUi::new` starts from: empty bitset, empty vector. -/
def initCache : CachedDrawOrder := ⟨∅, []⟩

/-- Prune step (`cache.retain(...)` with `bitset.remove` for dropped
entries): keep only entries whose entity still has a `UiTransform`,
removing dropped ids from the bitset. -/
def prune (st : TransStorage) (c : CachedDrawOrder) : CachedDrawOrder :=
  { cached :=
      c.cache.foldl
        (fun bs p => if (lookupT st p.2).isSome then bs else bs.erase p.2) c.cached,
    cache := c.cache.filter (fun p => (lookupT st p.2).isSome) }

/-- Depth refresh step: overwrite every cached `z` with the transform's
current `z` (`*z = ui_transform.get(entity).unwrap().z`).  After `prune`
every entry's lookup succeeds, so the fallback arm is unreachable. -/
def refreshZ (st : TransStorage) (cache : List (FVal × ℕ)) : List (FVal × ℕ) :=
  cache.map (fun p =>
    match lookupT st p.2 with
    | some t => (t.z, p.2)
    | none => p)

/-- Insertion step for newly visible entities: for each storage entry whose
id is not in the (pruned) bitset, find the first cache position whose `z`
satisfies `transform.z >= cached_z` and insert there, else push at the end. -/
def insertNew (st : TransStorage) (cached : Finset ℕ) (cache : List (FVal × ℕ)) :
    List (FVal × ℕ) :=
  st.foldl
    (fun acc p =>
      if p.1 ∈ cached then acc
      else
        match acc.findIdx? (fun q => fge p.2.z q.1) with
        | some i => acc.insertIdx i (p.2.z, p.1)
        | none => acc ++ [(p.2.z, p.1)])
    cache

/-- The sort comparator `|&(z1,_), &(z2,_)| z2.partial_cmp(&z1).unwrap_or(Equal)`
applied as a `≤`-style relation: `a` may precede `b` iff the comparator does
not answer `Greater`. -/
def leZ (a b : FVal × ℕ) : Prop := (fpcmp b.1 a.1).getD Ordering.eq ≠ Ordering.gt

instance : DecidableRel leZ := fun a b => by
  unfold leZ; infer_instance

/-- One draw-order cache maintenance pass, translated from
`DrawUiApply::drive_unindexed` (prune, depth refresh, diff + sorted insert,
bitset commit, full `sort_unstable_by` modelled as a deterministic
comparison sort). -/
def maintain (c : CachedDrawOrder) (st : TransStorage) : CachedDrawOrder :=
  let c1 := prune st c
  let cache2 := refreshZ st c1.cache
  let cache3 := insertNew st c1.cached cache2
  { cached := keysFinset st,
    cache := List.insertionSort leZ cache3 }


/-! ## `text.rs`: `UiText` and the `UiTextRenderer` system -/

abbrev FontHandle := ℕ

abbrev TextureHandle := ℕ

/-- The RGBA color array `[f32; 4]`. -/
structure Color4 where
  c0 : FVal
  c1 : FVal
  c2 : FVal
  c3 : FVal
deriving DecidableEq, Repr

/-- The `UiText` component. -/
structure UiText where
  texture : Option TextureHandle
  font : FontHandle
  text : String
  color : Color4
  fontSize : FVal
  dirty : Bool
deriving DecidableEq

/-- `UiText::new`. -/
def UiText.new (font : FontHandle) (text : String) (color : Color4) (fontSize : FVal) :
    UiText :=
  { texture := none, font := font, text := text, color := color,
    fontSize := fontSize, dirty := true }

/-- A positioned glyph as produced by the external `rusttype` layout
service: its position (`glyph.position()`, an `f32` point), and the
sequence of `(x, y, coverage)` triples its `draw` callback emits, in
callback order. -/
structure Glyph where
  posX : FVal
  posY : FVal
  pixels : List (ℕ × ℕ × FVal)

/-- The external font asset: `layout(text, scale, origin (0,0))` produces a
sequence of positioned glyphs. -/
structure FontAsset where
  layout : String → FVal → List Glyph

/-- Buffer length in floats:
`let num_floats = (transform.width * transform.height) as usize * 4`.
The product `transform.width * transform.height` is an `f32`
multiplication (round to nearest, `fmul32`), the cast truncates and
saturates, and the multiplication by 4 happens in `usize`, hence the
`% 2 ^ 64`. -/
def numFloats (tr : UiTransform) : ℕ :=
  sat64 (fmul32 tr.width tr.height) * 4 % 2 ^ 64

/-- One invocation of the glyph `draw` callback body: the coverage test,
the x offset by the glyph position (`u32` addition), the bounds guard and
the four buffer writes.  All `u32` arithmetic is mod `2^32`.  `none`
models the out-of-bounds indexing panic. -/
def writeTexel (color : Color4) (wN hN posx : ℕ) (buf : List FVal)
    (px : ℕ × ℕ × FVal) : Option (List FVal) :=
  match px with
  | (x0, y, v) =>
    if fgt v (FVal.val (1 / 100)) then
      let x := (x0 + posx) % 2 ^ 32
      if x < wN ∧ y < hN then
        let start := (x + y * wN % 2 ^ 32) % 2 ^ 32 * 4 % 2 ^ 32
        if start + 3 < buf.length then
          some (((((buf.set start color.c0).set (start + 1) color.c1).set
            (start + 2) color.c2).set (start + 3) (fmul32 color.c3 v)))
        else none
      else some buf
    else some buf

/-- Processing one glyph: compute `pos_x = position.x as u32` and run the
draw callback over every emitted pixel. -/
def drawGlyph (color : Color4) (wN hN : ℕ) (buf : List FVal) (g : Glyph) :
    Option (List FVal) :=
  g.pixels.foldlM (writeTexel color wN hN (sat32 g.posX)) buf

/-- The rasterization core of `UiTextRenderer::run` for one dirty element
with a resolved font (buffer allocation, visibility threshold, glyph loop).
Returns the pixel buffer handed to `load_from_data`, or `none` for a panic. -/
def rasterize (tr : UiTransform) (color : Color4) (fontSize : FVal)
    (txt : String) (font : FontAsset) : Option (List FVal) :=
  let buf0 := List.replicate (numFloats tr) (FVal.val 0)
  if fgt color.c3 (FVal.val (1 / 100)) then
    (font.layout txt fontSize).foldlM (drawGlyph color (sat32 tr.width) (sat32 tr.height)) buf0
  else
    some buf0

/-- The per-element body of `UiTextRenderer::run` (the loop over the join,
restricted to one `(transform, text)` pair): dirty filter, font resolution,
dirty-flag clear, NFD normalization, rasterization and texture upload.
`isComb` and `nfd` model the external `unicode_normalization` services,
`loadCounter` the `Loader` (handles are allocated sequentially). -/
def processElem (fontStore : FontHandle → Option FontAsset)
    (isComb : Char → Bool) (nfd : String → String)
    (tr : UiTransform) (t : UiText) (loadCounter : ℕ) : Option (UiText × ℕ) :=
  if t.dirty then
    match fontStore t.font with
    | none => some (t, loadCounter)
    | some font =>
      let t1 : UiText := { t with dirty := false }
      let t2 : UiText :=
        if t1.text.toList.any isComb then { t1 with text := nfd t1.text } else t1
      match rasterize tr t2.color t2.fontSize t2.text font with
      | none => none
      | some _ => some ({ t2 with texture := some loadCounter }, loadCounter + 1)
  else
    some (t, loadCounter)

/-- The `UiImage` component: a texture handle. -/
structure UiImage where
  texture : TextureHandle
deriving DecidableEq

/-- The resolved shared mesh.  `vbuf` records whether
`mesh.buffer(PosTex::ATTRIBUTES)` is `Some` (it is, by construction, for
the unit quad `DrawUi::new` loads). -/
structure Mesh where
  vbuf : Bool
deriving DecidableEq

/-- Which visual layer a draw call binds. -/
inductive Layer where
  | image : Layer
  | text : Layer
deriving DecidableEq, Repr

/-- One `effect.draw(mesh.slice(), encoder)` invocation, with the entity it
was issued for and the texture bound for it. -/
structure DrawCall where
  entity : ℕ
  layer : Layer
  tex : TextureHandle
deriving DecidableEq, Repr

/-- The emission loop over the cached draw order, translated from the
closure body: per entry, `ui_transform.get(entity).unwrap()` (a `none`
result models the panic), then the shared-mesh lookup whose `None` arm is
`return` (aborting every remaining element), the vertex-buffer lookup whose
`None` arm is `continue`, then the two `if let Some(...)` draws: the
image layer (`ui_image.get(entity).and_then(|i| tex_storage.get(&i.texture))`)
followed by the text layer
(`ui_text.get(entity).and_then(|t| t.texture.as_ref()).and_then(tex_storage.get)`). -/
def emitFrame (meshRes : Option Mesh) (texRes : TextureHandle → Bool)
    (imageStore : ℕ → Option UiImage) (textStore : ℕ → Option UiText)
    (st : TransStorage) : List (FVal × ℕ) → Option (List DrawCall)
  | [] => some []
  | p :: rest =>
    match lookupT st p.2 with
    | none => none
    | some _ =>
      match meshRes with
      | none => some []
      | some m =>
        if m.vbuf then
          let imageDraws : List DrawCall :=
            match (imageStore p.2).bind
                (fun img => if texRes img.texture then some img.texture else none) with
            | some h => [⟨p.2, Layer.image, h⟩]
            | none => []
          let textDraws : List DrawCall :=
            match ((textStore p.2).bind (fun t => t.texture)).bind
                (fun h => if texRes h then some h else none) with
            | some h => [⟨p.2, Layer.text, h⟩]
            | none => []
          (emitFrame meshRes texRes imageStore textStore st rest).map
            (fun tail => imageDraws ++ textDraws ++ tail)
        else
          emitFrame meshRes texRes imageStore textStore st rest

/-- The spec's reading of descending order for adjacent depth keys:
`a.z >= b.z`, with any comparison against NaN treated as satisfied. -/
def zGeq (a b : FVal) : Prop :=
  match a, b with
  | FVal.nan, _ => True
  | _, FVal.nan => True
  | FVal.val qa, FVal.val qb => qb ≤ qa

instance : DecidableRel zGeq := fun a b => by
  unfold zGeq
  cases a <;> cases b <;> infer_instance

/-- The draw calls the spec says one element contributes: an image-layer
call if the element has a `UiImage` whose texture resolves, then a
text-layer call if it has a `UiText` whose cached texture exists and
resolves. -/
def elemCalls (texRes : TextureHandle → Bool) (imageStore : ℕ → Option UiImage)
    (textStore : ℕ → Option UiText) (e : ℕ) : List DrawCall :=
  (match imageStore e with
   | some img => if texRes img.texture then [⟨e, Layer.image, img.texture⟩] else []
   | none => []) ++
  (match (textStore e).bind (fun t => t.texture) with
   | some h => if texRes h then [⟨e, Layer.text, h⟩] else []
   | none => [])

/-- One whole `drive_unindexed` frame: the maintenance pass over the cache,
then the emission closure walking the updated ordered sequence. -/
def runDrawUiFrame (c : CachedDrawOrder) (st : TransStorage)
    (meshRes : Option Mesh) (texRes : TextureHandle → Bool)
    (imageStore : ℕ → Option UiImage) (textStore : ℕ → Option UiText) :
    CachedDrawOrder × Option (List DrawCall) :=
  let c' := maintain c st
  (c', emitFrame meshRes texRes imageStore textStore st c'.cache)

/-! ## Analysis definitions for the rasterizer -/

/-- The four channels of texel `(x, y)` of a row-major RGBA float buffer of
row width `wN` (defaulting to 0.0, the initialization value, out of
bounds). -/
def texelRGBA (buf : List FVal) (wN x y : ℕ) : FVal × FVal × FVal × FVal :=
  (buf.getD (4 * (x + y * wN)) (FVal.val 0),
   buf.getD (4 * (x + y * wN) + 1) (FVal.val 0),
   buf.getD (4 * (x + y * wN) + 2) (FVal.val 0),
   buf.getD (4 * (x + y * wN) + 3) (FVal.val 0))

/-- The flattened write stream of a glyph list: every draw-callback triple
in emission order, with the glyph's x position already added to the local
x offset (`u32` addition), exactly as the callback body computes it. -/
def glyphWrites (glyphs : List Glyph) : List (ℕ × ℕ × FVal) :=
  glyphs.flatMap
    (fun g => g.pixels.map (fun px => ((px.1 + sat32 g.posX) % 2 ^ 32, px.2.1, px.2.2)))

/-- The callback body specialised to a zero x offset, used to process the
flattened stream. -/
def writeTexelAbs (color : Color4) (wN hN : ℕ) (buf : List FVal)
    (px : ℕ × ℕ × FVal) : Option (List FVal) :=
  writeTexel color wN hN 0 buf px

/-- The last coverage value above the visibility threshold that a write
stream deposits at texel `(x, y)`. -/
def covLast (ws : List (ℕ × ℕ × FVal)) (x y : ℕ) : Option FVal :=
  (ws.filterMap
    (fun w => if w.1 = x ∧ w.2.1 = y ∧ fgt w.2.2 (FVal.val (1 / 100)) then some w.2.2 else none)).getLast?

/-- The last visible coverage a glyph list writes at texel `(x, y)`. -/
def lastCoverage (glyphs : List Glyph) (x y : ℕ) : Option FVal :=
  covLast (glyphWrites glyphs) x y

/-- Modelled from the spec (§4.2 step 5): the glyph blit as the spec words
it — the pixel's absolute position is the glyph position plus the local
offset on BOTH the x and the y axes, and the guarded write happens at that
absolute texel.  This definition exists only to compare the spec's wording
against `writeTexel`, the code's behaviour (which offsets x only). -/
def writeTexelSpec (color : Color4) (wN hN posx posy : ℕ) (buf : List FVal)
    (px : ℕ × ℕ × FVal) : Option (List FVal) :=
  match px with
  | (x0, y0, v) =>
    if fgt v (FVal.val (1 / 100)) then
      let x := (x0 + posx) % 2 ^ 32
      let y := (y0 + posy) % 2 ^ 32
      if x < wN ∧ y < hN then
        let start := (x + y * wN % 2 ^ 32) % 2 ^ 32 * 4 % 2 ^ 32
        if start + 3 < buf.length then
          some (((((buf.set start color.c0).set (start + 1) color.c1).set
            (start + 2) color.c2).set (start + 3) (fmul32 color.c3 v)))
        else none
      else some buf
    else some buf

/-- Modelled from the spec: one glyph processed with the both-axes offset
of `writeTexelSpec`. -/
def drawGlyphSpec (color : Color4) (wN hN : ℕ) (buf : List FVal) (g : Glyph) :
    Option (List FVal) :=
  g.pixels.foldlM (writeTexelSpec color wN hN (sat32 g.posX) (sat32 g.posY)) buf

/-- Modelled from the spec: the rasterization core with the spec's
both-axes glyph offset. -/
def rasterizeSpec (tr : UiTransform) (color : Color4) (fontSize : FVal)
    (txt : String) (font : FontAsset) : Option (List FVal) :=
  let buf0 := List.replicate (numFloats tr) (FVal.val 0)
  if fgt color.c3 (FVal.val (1 / 100)) then
    (font.layout txt fontSize).foldlM (drawGlyphSpec color (sat32 tr.width) (sat32 tr.height)) buf0
  else
    some buf0

/-- Modelled from the spec (§4.2 step 3): the buffer size as the spec words
it — `width * height` texels, `width`/`height` each truncated to a
non-negative integer, 4 floats per texel.  Exists only for comparison with
`numFloats`, the code's computation (which truncates the product). -/
def numFloatsClaim (tr : UiTransform) : ℕ :=
  sat64 tr.width * sat64 tr.height * 4

/-! ## Concrete inputs used by witnesses and counterexamples -/

/-- A benign 10x10 transform. -/
def trTen : UiTransform :=
  ⟨FVal.val 0, FVal.val 0, FVal.val 10, FVal.val 10, FVal.val 0⟩

/-- A transform whose dimensions (2^31 each) overflow the `usize` buffer
length computation `(width * height) as usize * 4`. -/
def trOverflow : UiTransform :=
  ⟨FVal.val 0, FVal.val 0, FVal.val 2147483648, FVal.val 2147483648, FVal.val 0⟩

/-- A transform with fractional width 1.5 and height 2. -/
def trFrac : UiTransform :=
  ⟨FVal.val 0, FVal.val 0, FVal.val (3 / 2), FVal.val 2, FVal.val 0⟩

/-- Opaque white. -/
def colorOpaque : Color4 := ⟨FVal.val 1, FVal.val 1, FVal.val 1, FVal.val 1⟩

/-- Fully transparent red (alpha 0). -/
def colorClear : Color4 := ⟨FVal.val 1, FVal.val 0, FVal.val 0, FVal.val 0⟩

/-- A font whose layout yields one glyph at the origin covering one pixel
fully. -/
def fontDot : FontAsset :=
  ⟨fun _ _ => [⟨FVal.val 0, FVal.val 0, [(0, 0, FVal.val 1)]⟩]⟩

/-- A font whose layout yields one glyph positioned at y = 5 covering its
local origin pixel fully. -/
def fontShifted : FontAsset :=
  ⟨fun _ _ => [⟨FVal.val 0, FVal.val 5, [(0, 0, FVal.val 1)]⟩]⟩

/-- A font whose layout yields no glyphs. -/
def fontEmpty : FontAsset := ⟨fun _ _ => []⟩

/-- A transform whose f32-exact dimensions (4097 each) make the `f32`
product round down: fl(4097 * 4097) = 16785408 < 16785409 (the exact
product is odd and lies exactly between two even representable neighbours,
so the tie rounds to even, downward), leaving the allocated buffer one
texel short of the rectangle the `u32` guards admit. -/
def trRound : UiTransform :=
  ⟨FVal.val 0, FVal.val 0, FVal.val 4097, FVal.val 4097, FVal.val 0⟩

/-- A font whose layout yields one glyph at the origin whose draw callback
fully covers the pixel (4096, 4096) — the last texel the guards admit at
4097 x 4097. -/
def fontCorner : FontAsset :=
  ⟨fun _ _ => [⟨FVal.val 0, FVal.val 0, [(4096, 4096, FVal.val 1)]⟩]⟩

/-- Well-formedness of the cache state: the ordered sequence carries no
duplicate entity ids, and the bitset is exactly the set of ids present in
the ordered sequence.  This holds for `DrawUi::new`'s initial state and is
preserved by every maintenance pass. -/
def WFCache (c : CachedDrawOrder) : Prop :=
  (c.cache.map Prod.snd).Nodup ∧ c.cached = (c.cache.map Prod.snd).toFinset

instance : DecidablePred WFCache := fun c => by
  unfold WFCache
  infer_instance

/-- The spec's two-frame scenario storage: ids 1, 2, 3 with depths 5, 1, 5. -/
def stScenario : TransStorage :=
  [(1, ⟨FVal.val 0, FVal.val 0, FVal.val 1, FVal.val 1, FVal.val 5⟩),
   (2, ⟨FVal.val 0, FVal.val 0, FVal.val 1, FVal.val 1, FVal.val 1⟩),
   (3, ⟨FVal.val 0, FVal.val 0, FVal.val 1, FVal.val 1, FVal.val 5⟩)]

/-- A frame-1 cache state holding ids 1 and 2 only. -/
def cScenario : CachedDrawOrder :=
  ⟨{1, 2}, [(FVal.val 5, 1), (FVal.val 1, 2)]⟩

/-- Transform storage for the emission witness. -/
def stEmit : TransStorage :=
  [(1, ⟨FVal.val 0, FVal.val 0, FVal.val 4, FVal.val 4, FVal.val 5⟩),
   (2, ⟨FVal.val 0, FVal.val 0, FVal.val 4, FVal.val 4, FVal.val 3⟩)]

/-- Texture resolution for the emission witness: handles 7 and 9 resolve. -/
def texResEmit : TextureHandle → Bool := fun h => decide (h = 7 ∨ h = 9)

/-- Image store for the emission witness: entity 1 has a resolved image,
entity 2 an unresolved one. -/
def imageStoreEmit : ℕ → Option UiImage :=
  fun e => if e = 1 then some ⟨7⟩ else if e = 2 then some ⟨8⟩ else none

/-- Text store for the emission witness: entity 1 has a cached, resolved
text texture. -/
def textStoreEmit : ℕ → Option UiText :=
  fun e =>
    if e = 1 then
      some { texture := some 9, font := 0, text := "hi",
             color := ⟨FVal.val 1, FVal.val 1, FVal.val 1, FVal.val 1⟩,
             fontSize := FVal.val 12, dirty := false }
    else none

/-! ## Helper lemmas: the sort comparator and insertion sort -/

/-- The comparator never answers `Greater` in both directions: if `a` may
not precede `b`, then `b` may precede `a`. -/
theorem leZ_of_not_leZ {a b : FVal × ℕ} (h : ¬ leZ a b) : leZ b a := by
  obtain ⟨za, na⟩ := a
  obtain ⟨zb, nb⟩ := b
  unfold leZ at h ⊢
  simp only at h ⊢
  cases za <;> cases zb <;> simp [fpcmp] at h ⊢
  intro _
  exact h.1

/-- `leZ` is exactly the spec's NaN-tolerant descending-order relation on
the depth keys. -/
theorem zGeq_of_leZ {a b : FVal × ℕ} (h : leZ a b) : zGeq a.1 b.1 := by
  obtain ⟨za, na⟩ := a
  obtain ⟨zb, nb⟩ := b
  unfold leZ at h
  unfold zGeq
  simp only at h ⊢
  cases za <;> cases zb <;> simp [fpcmp] at h ⊢
  rename_i qa qb
  rcases le_or_lt qa qb with hc | hc
  · exact h hc
  · exact le_of_lt hc

section SortChain

variable {α : Type} (r : α → α → Prop) [DecidableRel r]

/-- The head of an ordered insert is the inserted element or the old head. -/
theorem head_orderedInsert (a : α) (l : List α) :
    (List.orderedInsert r a l).head? = some a ∨ (List.orderedInsert r a l).head? = l.head? := by
  cases l with
  | nil => left; rfl
  | cons b t =>
    by_cases h : r a b
    · left; simp [List.orderedInsert, h]
    · right; simp [List.orderedInsert, h]

/-- For a total (not necessarily transitive) relation, ordered insertion
preserves adjacent sortedness. -/
theorem chain'_orderedInsert (htot : ∀ a b, ¬ r a b → r b a) (a : α) :
    ∀ l : List α, List.Chain' r l → List.Chain' r (List.orderedInsert r a l)
  | [], _ => by simp
  | b :: t, h => by
    by_cases hab : r a b
    · rw [List.orderedInsert_of_le r _ hab]
      exact List.chain'_cons.mpr ⟨hab, h⟩
    · rw [List.orderedInsert, if_neg hab]
      have ht : List.Chain' r t := h.tail
      have ih := chain'_orderedInsert htot a t ht
      refine List.chain'_cons'.mpr ⟨?_, ih⟩
      intro y hy
      rcases head_orderedInsert r a t with hh | hh
      · rw [hh] at hy
        simp at hy
        subst hy
        exact htot a b hab
      · rw [hh] at hy
        exact (List.chain'_cons'.mp h).1 y hy

/-- For a total relation, insertion sort always yields an adjacently
sorted list. -/
theorem chain'_insertionSort (htot : ∀ a b, ¬ r a b → r b a) :
    ∀ l : List α, List.Chain' r (List.insertionSort r l)
  | [] => by simp
  | a :: t => chain'_orderedInsert r htot a _ (chain'_insertionSort htot t)

/-- Insertion sort leaves an adjacently sorted list unchanged. -/
theorem insertionSort_eq_of_chain' :
    ∀ l : List α, List.Chain' r l → List.insertionSort r l = l
  | [], _ => rfl
  | a :: t, h => by
    rw [List.insertionSort, insertionSort_eq_of_chain' t h.tail]
    cases t with
    | nil => rfl
    | cons b t' => exact List.orderedInsert_of_le r _ (List.chain'_cons.mp h).1

end SortChain

/-! ## Helper lemmas: lookup and storage -/

theorem lookupT_isSome_iff {st : TransStorage} {e : ℕ} :
    (lookupT st e).isSome ↔ e ∈ keysList st := by
  unfold lookupT keysList
  induction st with
  | nil => simp
  | cons a t ih =>
    by_cases h : a.1 = e
    · rw [List.find?_cons_of_pos _ (by simpa using h)]
      simp [h]
    · rw [List.find?_cons_of_neg _ (by simpa using h)]
      simp only [List.map_cons, List.mem_cons]
      rw [ih]
      constructor
      · exact Or.inr
      · rintro (rfl | hm)
        · exact absurd rfl h
        · exact hm

theorem lookupT_of_mem_nodup {st : TransStorage} (hnd : (keysList st).Nodup)
    {p : ℕ × UiTransform} (hp : p ∈ st) : lookupT st p.1 = some p.2 := by
  unfold lookupT
  induction st with
  | nil => simp at hp
  | cons a t ih =>
    rcases List.mem_cons.mp hp with rfl | hmem
    · rw [List.find?_cons_of_pos _ (by simp)]
      rfl
    · have hne : a.1 ≠ p.1 := by
        intro he
        have hmk : p.1 ∈ keysList t := List.mem_map.mpr ⟨p, hmem, rfl⟩
        rw [← he] at hmk
        exact (List.nodup_cons.mp hnd).1 hmk
      rw [List.find?_cons_of_neg _ (by simpa using hne)]
      exact ih (List.nodup_cons.mp hnd).2 hmem

/-! ## Helper lemmas: membership through the maintenance steps -/

theorem mem_prune_cache {st : TransStorage} {c : CachedDrawOrder} {p : FVal × ℕ}
    (hp : p ∈ (prune st c).cache) : p ∈ c.cache ∧ (lookupT st p.2).isSome := by
  have := List.of_mem_filter hp
  exact ⟨List.mem_of_mem_filter hp, by simpa using this⟩

theorem mem_refreshZ {st : TransStorage} {l : List (FVal × ℕ)} {p : FVal × ℕ}
    (hp : p ∈ refreshZ st l) :
    (∃ t, lookupT st p.2 = some t ∧ p.1 = t.z) ∨ (p ∈ l ∧ lookupT st p.2 = none) := by
  unfold refreshZ at hp
  rcases List.mem_map.mp hp with ⟨q, hq, he⟩
  rcases hl : lookupT st q.2 with _ | t
  · rw [hl] at he
    right
    subst he
    exact ⟨hq, hl⟩
  · rw [hl] at he
    left
    subst he
    exact ⟨t, hl, rfl⟩

theorem mem_insertNew {st : TransStorage} {cached : Finset ℕ} {cache : List (FVal × ℕ)}
    {p : FVal × ℕ} (hp : p ∈ insertNew st cached cache) :
    p ∈ cache ∨ ∃ q ∈ st, p = (q.2.z, q.1) := by
  unfold insertNew at hp
  induction st generalizing cache with
  | nil => exact Or.inl hp
  | cons a t ih =>
    rw [List.foldl_cons] at hp
    by_cases ha : a.1 ∈ cached
    · rw [if_pos ha] at hp
      rcases ih hp with h | ⟨q, hq, he⟩
      · exact Or.inl h
      · exact Or.inr ⟨q, List.mem_cons_of_mem a hq, he⟩
    · rw [if_neg ha] at hp
      have hstep : ∀ r ∈ (match cache.findIdx? (fun q => fge a.2.z q.1) with
          | some i => cache.insertIdx i (a.2.z, a.1)
          | none => cache ++ [(a.2.z, a.1)]), r ∈ cache ∨ r = (a.2.z, a.1) := by
        intro r hr
        rcases hidx : cache.findIdx? (fun q => fge a.2.z q.1) with _ | i
        · rw [hidx] at hr
          simpa using hr
        · rw [hidx] at hr
          have hle : i ≤ cache.length :=
            le_of_lt ((List.findIdx?_eq_some_iff_findIdx_eq.mp hidx).1)
          have := (List.perm_insertIdx (a.2.z, a.1) cache hle).mem_iff.mp hr
          rcases List.mem_cons.mp this with he | hm
          · exact Or.inr he
          · exact Or.inl hm
      rcases ih hp with h | ⟨q, hq, he⟩
      · rcases hstep _ h with h' | h'
        · exact Or.inl h'
        · exact Or.inr ⟨a, List.mem_cons_self a t, h'⟩
      · exact Or.inr ⟨q, List.mem_cons_of_mem a hq, he⟩

/-- Every entry of a maintained cache refers to an entity that currently
holds a transform. -/
theorem maintain_mem_keys {c : CachedDrawOrder} {st : TransStorage} {p : FVal × ℕ}
    (hp : p ∈ (maintain c st).cache) : (lookupT st p.2).isSome := by
  unfold maintain at hp
  simp only at hp
  have hp' := (List.perm_insertionSort leZ _).mem_iff.mp hp
  rcases mem_insertNew hp' with h | ⟨q, hq, he⟩
  · rcases mem_refreshZ h with ⟨t, ht, _⟩ | ⟨hmem, _⟩
    · simp [ht]
    · exact (mem_prune_cache hmem).2
  · subst he
    exact lookupT_isSome_iff.mpr (List.mem_map.mpr ⟨q, hq, rfl⟩)

/-! ## Helper lemmas: idempotence of the maintenance pass -/

theorem foldl_erase_id {st : TransStorage} :
    ∀ (l : List (FVal × ℕ)) (bs : Finset ℕ),
      (∀ p ∈ l, (lookupT st p.2).isSome) →
      l.foldl (fun bs p => if (lookupT st p.2).isSome then bs else bs.erase p.2) bs = bs
  | [], _, _ => rfl
  | a :: t, bs, h => by
    rw [List.foldl_cons, if_pos (h a (List.mem_cons_self a t))]
    exact foldl_erase_id t bs (fun p hp => h p (List.mem_cons_of_mem a hp))

theorem prune_of_all_kept {st : TransStorage} {c : CachedDrawOrder}
    (h : ∀ p ∈ c.cache, (lookupT st p.2).isSome) : prune st c = c := by
  obtain ⟨bs, l⟩ := c
  unfold prune
  simp only
  rw [foldl_erase_id l bs h, List.filter_eq_self.mpr (fun p hp => by simpa using h p hp)]

theorem refreshZ_of_synced {st : TransStorage} {l : List (FVal × ℕ)}
    (h : ∀ p ∈ l, ∃ t, lookupT st p.2 = some t ∧ p.1 = t.z) : refreshZ st l = l := by
  unfold refreshZ
  induction l with
  | nil => rfl
  | cons a t ih =>
    rcases h a (List.mem_cons_self a t) with ⟨tt, htt, hz⟩
    rw [List.map_cons, ih (fun p hp => h p (List.mem_cons_of_mem a hp))]
    rw [htt]
    simp only
    rw [← hz]

theorem insertNew_of_all_mem {cached : Finset ℕ} :
    ∀ (st : TransStorage) (cache : List (FVal × ℕ)),
      (∀ p ∈ st, p.1 ∈ cached) → insertNew st cached cache = cache
  | [], _, _ => rfl
  | a :: t, cache, h => by
    show List.foldl _ _ (a :: t) = cache
    rw [List.foldl_cons, if_pos (h a (List.mem_cons_self a t))]
    exact insertNew_of_all_mem t cache (fun p hp => h p (List.mem_cons_of_mem a hp))

theorem maintain_synced {c : CachedDrawOrder} {st : TransStorage}
    (hnd : (keysList st).Nodup) :
    ∀ p ∈ (maintain c st).cache, ∃ t, lookupT st p.2 = some t ∧ p.1 = t.z := by
  intro p hp
  unfold maintain at hp
  simp only at hp
  have hp' := (List.perm_insertionSort leZ _).mem_iff.mp hp
  rcases mem_insertNew hp' with h | ⟨q, hq, he⟩
  · rcases mem_refreshZ h with hs | ⟨hmem, hnone⟩
    · exact hs
    · have hk := (mem_prune_cache hmem).2
      rw [hnone] at hk
      simp at hk
  · subst he
    exact ⟨q.2, lookupT_of_mem_nodup hnd hq, rfl⟩

theorem maintain_cache_eq (c : CachedDrawOrder) (st : TransStorage) :
    (maintain c st).cache =
      List.insertionSort leZ (insertNew st (prune st c).cached (refreshZ st (prune st c).cache)) :=
  rfl

theorem maintain_cached_eq (c : CachedDrawOrder) (st : TransStorage) :
    (maintain c st).cached = keysFinset st :=
  rfl

theorem maintain_chain' (c : CachedDrawOrder) (st : TransStorage) :
    List.Chain' leZ (maintain c st).cache := by
  rw [maintain_cache_eq]
  exact chain'_insertionSort leZ (fun a b h => leZ_of_not_leZ h) _

/-! ## Claim theorems: C2 and C8 -/

/-- **C2**: after every maintenance pass, every adjacent pair `(a, b)` of
the cache's ordered sequence satisfies `a.z >= b.z` descending, where the
comparison treats incomparable values (NaN) as equal; moreover the
comparator used by the sort is total — it answers for every pair of keys,
NaN included, so the sort never panics or aborts. -/
theorem maintain_sorted_descending (c : CachedDrawOrder) (st : TransStorage) :
    List.Chain' (fun a b : FVal × ℕ => zGeq a.1 b.1) (maintain c st).cache ∧
      ∀ a b : FVal × ℕ, leZ a b ∨ leZ b a := by
  constructor
  · exact List.Chain'.imp (fun a b hab => zGeq_of_leZ hab) (maintain_chain' c st)
  · intro a b
    by_cases h : leZ a b
    · exact Or.inl h
    · exact Or.inr (leZ_of_not_leZ h)

/-- **C8**: running the maintenance pass twice against the same transform
storage yields exactly the same cache state (in particular a byte-identical
ordered sequence) as running it once. -/
theorem maintain_idempotent (c : CachedDrawOrder) (st : TransStorage)
    (hnd : (keysList st).Nodup) :
    maintain (maintain c st) st = maintain c st := by
  have hkeys : ∀ p ∈ (maintain c st).cache, (lookupT st p.2).isSome :=
    fun p hp => maintain_mem_keys hp
  have hprune : prune st (maintain c st) = maintain c st := prune_of_all_kept hkeys
  have hrefresh : refreshZ st (maintain c st).cache = (maintain c st).cache :=
    refreshZ_of_synced (maintain_synced hnd)
  have hins : insertNew st (maintain c st).cached (maintain c st).cache =
      (maintain c st).cache := by
    rw [maintain_cached_eq]
    exact insertNew_of_all_mem st _
      (fun p hp => by
        simp only [keysFinset, List.mem_toFinset]
        exact List.mem_map.mpr ⟨p, hp, rfl⟩)
  have hsort : List.insertionSort leZ (maintain c st).cache = (maintain c st).cache :=
    insertionSort_eq_of_chain' leZ _ (maintain_chain' c st)
  have hstep : maintain (maintain c st) st =
      { cached := keysFinset st, cache := (maintain c st).cache } := by
    rw [maintain, hprune, hrefresh, hins, hsort]
  rw [hstep, ← maintain_cached_eq c st]

/-- Witness for C8 at a concrete two-entity storage. -/
theorem maintain_idempotent_witness :
    maintain (maintain initCache
        [(1, ⟨FVal.val 0, FVal.val 0, FVal.val 1, FVal.val 1, FVal.val 5⟩),
         (2, ⟨FVal.val 0, FVal.val 0, FVal.val 1, FVal.val 1, FVal.nan⟩)])
        [(1, ⟨FVal.val 0, FVal.val 0, FVal.val 1, FVal.val 1, FVal.val 5⟩),
         (2, ⟨FVal.val 0, FVal.val 0, FVal.val 1, FVal.val 1, FVal.nan⟩)] =
      maintain initCache
        [(1, ⟨FVal.val 0, FVal.val 0, FVal.val 1, FVal.val 1, FVal.val 5⟩),
         (2, ⟨FVal.val 0, FVal.val 0, FVal.val 1, FVal.val 1, FVal.nan⟩)] :=
  maintain_idempotent _ _ (by decide)

/-! ## Helper lemmas: cache well-formedness (C1) -/

theorem mem_foldl_erase (st : TransStorage) :
    ∀ (l : List (FVal × ℕ)) (bs : Finset ℕ) (e : ℕ),
      (e ∈ l.foldl (fun bs p => if (lookupT st p.2).isSome then bs else bs.erase p.2) bs) ↔
        (e ∈ bs ∧ ∀ p ∈ l, p.2 = e → (lookupT st p.2).isSome)
  | [], bs, e => by simp
  | a :: t, bs, e => by
    rw [List.foldl_cons]
    by_cases h : (lookupT st a.2).isSome
    · rw [if_pos h, mem_foldl_erase st t bs e]
      constructor
      · rintro ⟨h1, h2⟩
        refine ⟨h1, ?_⟩
        intro p hp hpe
        rcases List.mem_cons.mp hp with rfl | hm
        · exact h
        · exact h2 p hm hpe
      · rintro ⟨h1, h2⟩
        exact ⟨h1, fun p hp hpe => h2 p (List.mem_cons_of_mem a hp) hpe⟩
    · rw [if_neg h, mem_foldl_erase st t (bs.erase a.2) e, Finset.mem_erase]
      constructor
      · rintro ⟨⟨hne, hbs⟩, h2⟩
        refine ⟨hbs, ?_⟩
        intro p hp hpe
        rcases List.mem_cons.mp hp with rfl | hm
        · exact absurd hpe hne.symm
        · exact h2 p hm hpe
      · rintro ⟨hbs, h2⟩
        refine ⟨⟨?_, hbs⟩, fun p hp hpe => h2 p (List.mem_cons_of_mem a hp) hpe⟩
        intro he
        exact h (h2 a (List.mem_cons_self a t) he.symm)

theorem prune_ids_nodup {st : TransStorage} {c : CachedDrawOrder}
    (hwf : WFCache c) : ((prune st c).cache.map Prod.snd).Nodup :=
  hwf.1.sublist (List.Sublist.map Prod.snd (List.filter_sublist c.cache))

theorem mem_prune_cached_iff {st : TransStorage} {c : CachedDrawOrder}
    (hwf : WFCache c) (e : ℕ) :
    e ∈ (prune st c).cached ↔ e ∈ (prune st c).cache.map Prod.snd := by
  show e ∈ c.cache.foldl _ c.cached ↔ _
  rw [mem_foldl_erase st c.cache c.cached e]
  constructor
  · rintro ⟨hbs, hall⟩
    rw [hwf.2, List.mem_toFinset] at hbs
    rcases List.mem_map.mp hbs with ⟨q, hq, he⟩
    refine List.mem_map.mpr ⟨q, List.mem_filter.mpr ⟨hq, ?_⟩, he⟩
    simpa using hall q hq he
  · intro hm
    rcases List.mem_map.mp hm with ⟨q, hq, he⟩
    have hqmem := List.mem_of_mem_filter hq
    have hkeep : (lookupT st q.2).isSome := by simpa using List.of_mem_filter hq
    constructor
    · rw [hwf.2, List.mem_toFinset]
      exact List.mem_map.mpr ⟨q, hqmem, he⟩
    · intro p hp hpe
      have : p = q := List.inj_on_of_nodup_map hwf.1 hp hqmem (hpe.trans he.symm)
      subst this
      exact hkeep

theorem refreshZ_ids (st : TransStorage) :
    ∀ l : List (FVal × ℕ), (refreshZ st l).map Prod.snd = l.map Prod.snd
  | [] => rfl
  | a :: t => by
    unfold refreshZ
    rw [List.map_cons, List.map_cons]
    have ht := refreshZ_ids st t
    unfold refreshZ at ht
    rw [ht]
    rcases h : lookupT st a.2 with _ | tt <;> simp [h]

theorem insertNew_cons (cached : Finset ℕ) (a : ℕ × UiTransform) (t : TransStorage)
    (cache : List (FVal × ℕ)) :
    insertNew (a :: t) cached cache =
      insertNew t cached
        (if a.1 ∈ cached then cache
         else
           match cache.findIdx? (fun q => fge a.2.z q.1) with
           | some i => cache.insertIdx i (a.2.z, a.1)
           | none => cache ++ [(a.2.z, a.1)]) :=
  rfl

theorem insertNew_ids_perm (cached : Finset ℕ) :
    ∀ (st : TransStorage) (cache : List (FVal × ℕ)),
      ((insertNew st cached cache).map Prod.snd).Perm
        (cache.map Prod.snd ++ (st.filter (fun p => p.1 ∉ cached)).map Prod.fst)
  | [], cache => by simp [insertNew]
  | a :: t, cache => by
    rw [insertNew_cons]
    by_cases h : a.1 ∈ cached
    · rw [if_pos h, List.filter_cons_of_neg (by simpa using h)]
      exact insertNew_ids_perm cached t cache
    · rw [if_neg h, List.filter_cons_of_pos (by simpa using h)]
      rcases hidx : cache.findIdx? (fun q => fge a.2.z q.1) with _ | i
      · rw [hidx]
        refine (insertNew_ids_perm cached t _).trans ?_
        rw [List.map_append, List.append_assoc]
        exact List.Perm.refl _
      · rw [hidx]
        have hle : i ≤ cache.length :=
          le_of_lt ((List.findIdx?_eq_some_iff_findIdx_eq.mp hidx).1)
        refine (insertNew_ids_perm cached t _).trans ?_
        have hperm : ((cache.insertIdx i (a.2.z, a.1)).map Prod.snd).Perm
            (a.1 :: cache.map Prod.snd) :=
          ((List.perm_insertIdx (a.2.z, a.1) cache hle).map Prod.snd)
        refine (hperm.append_right _).trans ?_
        simp only [List.map_cons]
        exact (List.perm_middle).symm

theorem maintain_ids_perm (c : CachedDrawOrder) (st : TransStorage) :
    ((maintain c st).cache.map Prod.snd).Perm
      ((prune st c).cache.map Prod.snd ++
        (st.filter (fun p => p.1 ∉ (prune st c).cached)).map Prod.fst) := by
  rw [maintain_cache_eq]
  refine ((List.perm_insertionSort leZ _).map Prod.snd).trans ?_
  refine (insertNew_ids_perm _ st _).trans ?_
  rw [refreshZ_ids]

/-- **C1**: starting from a well-formed cache state, after a maintenance
pass against a duplicate-free transform storage: the membership bitset
equals exactly the set of ids holding a `UiTransform`, the ordered sequence
carries no duplicate ids, and its ids are exactly the members; moreover
well-formedness is preserved by the pass and holds for the initial state,
so every reachable per-frame state satisfies the invariant. -/
theorem maintain_membership (c : CachedDrawOrder) (st : TransStorage)
    (hwf : WFCache c) (hnd : (keysList st).Nodup) :
    (maintain c st).cached = keysFinset st ∧
    ((maintain c st).cache.map Prod.snd).Nodup ∧
    (∀ e : ℕ, e ∈ (maintain c st).cache.map Prod.snd ↔ e ∈ keysList st) ∧
    WFCache (maintain c st) ∧ WFCache initCache := by
  have hperm := maintain_ids_perm c st
  have hPnodup : ((prune st c).cache.map Prod.snd).Nodup := prune_ids_nodup hwf
  have hNnodup : ((st.filter (fun p => p.1 ∉ (prune st c).cached)).map Prod.fst).Nodup :=
    hnd.sublist (List.Sublist.map Prod.fst (List.filter_sublist st))
  have hPsub : ∀ e ∈ (prune st c).cache.map Prod.snd, e ∈ keysList st := by
    intro e he
    rcases List.mem_map.mp he with ⟨q, hq, hqe⟩
    have := (mem_prune_cache hq).2
    rw [hqe] at this
    exact lookupT_isSome_iff.mp this
  have hNchar : ∀ e : ℕ, e ∈ (st.filter (fun p => p.1 ∉ (prune st c).cached)).map Prod.fst ↔
      (e ∈ keysList st ∧ e ∉ (prune st c).cached) := by
    intro e
    constructor
    · intro he
      rcases List.mem_map.mp he with ⟨q, hq, hqe⟩
      refine ⟨List.mem_map.mpr ⟨q, List.mem_of_mem_filter hq, hqe⟩, ?_⟩
      have := List.of_mem_filter hq
      rw [← hqe]
      simpa using this
    · rintro ⟨hk, hnc⟩
      rcases List.mem_map.mp hk with ⟨q, hq, hqe⟩
      refine List.mem_map.mpr ⟨q, List.mem_filter.mpr ⟨hq, ?_⟩, hqe⟩
      rw [hqe]
      simpa using hnc
  have hPchar : ∀ e : ℕ, e ∈ (prune st c).cache.map Prod.snd ↔ e ∈ (prune st c).cached :=
    fun e => (mem_prune_cached_iff hwf e).symm
  have hnodupPN : ((prune st c).cache.map Prod.snd ++
      (st.filter (fun p => p.1 ∉ (prune st c).cached)).map Prod.fst).Nodup :=
    hPnodup.append hNnodup
      (fun e heP heN => (((hNchar e).mp heN).2 ((hPchar e).mp heP)).elim)
  have hids : ∀ e : ℕ, e ∈ (maintain c st).cache.map Prod.snd ↔ e ∈ keysList st := by
    intro e
    rw [hperm.mem_iff, List.mem_append]
    constructor
    · rintro (hP | hN)
      · exact hPsub e hP
      · exact ((hNchar e).mp hN).1
    · intro hk
      by_cases hc : e ∈ (prune st c).cached
      · exact Or.inl ((hPchar e).mpr hc)
      · exact Or.inr ((hNchar e).mpr ⟨hk, hc⟩)
  have hnodup : ((maintain c st).cache.map Prod.snd).Nodup :=
    hperm.nodup_iff.mpr hnodupPN
  refine ⟨maintain_cached_eq c st, hnodup, hids, ⟨hnodup, ?_⟩, by decide⟩
  rw [maintain_cached_eq]
  apply Finset.ext
  intro e
  rw [List.mem_toFinset, hids e]
  unfold keysFinset
  rw [List.mem_toFinset]

/-- Witness for C1 on the spec's scenario: after the frame-2 pass the
bitset is `{1,2,3}`, the ordered sequence has no duplicates, and id 3 is a
member. -/
theorem maintain_membership_witness :
    (maintain cScenario stScenario).cached = keysFinset stScenario ∧
    ((maintain cScenario stScenario).cache.map Prod.snd).Nodup ∧
    (3 ∈ (maintain cScenario stScenario).cache.map Prod.snd ↔ 3 ∈ keysList stScenario) := by
  have h := maintain_membership cScenario stScenario (by decide) (by decide)
  exact ⟨h.1, h.2.1, h.2.2.1 3⟩

/-! ## Helper lemmas: emission -/

theorem emitFrame_cons (meshRes : Option Mesh) (texRes : TextureHandle → Bool)
    (imageStore : ℕ → Option UiImage) (textStore : ℕ → Option UiText)
    (st : TransStorage) (p : FVal × ℕ) (rest : List (FVal × ℕ)) :
    emitFrame meshRes texRes imageStore textStore st (p :: rest) =
      match lookupT st p.2 with
      | none => none
      | some _ =>
        match meshRes with
        | none => some []
        | some m =>
          if m.vbuf then
            (emitFrame meshRes texRes imageStore textStore st rest).map
              (fun tail =>
                (match (imageStore p.2).bind
                    (fun img => if texRes img.texture then some img.texture else none) with
                 | some h => [⟨p.2, Layer.image, h⟩]
                 | none => []) ++
                (match ((textStore p.2).bind (fun t => t.texture)).bind
                    (fun h => if texRes h then some h else none) with
                 | some h => [⟨p.2, Layer.text, h⟩]
                 | none => []) ++ tail)
          else emitFrame meshRes texRes imageStore textStore st rest :=
  rfl

theorem elemCalls_eq (texRes : TextureHandle → Bool) (imageStore : ℕ → Option UiImage)
    (textStore : ℕ → Option UiText) (e : ℕ) :
    elemCalls texRes imageStore textStore e =
      (match (imageStore e).bind
          (fun img => if texRes img.texture then some img.texture else none) with
       | some h => [⟨e, Layer.image, h⟩]
       | none => []) ++
      (match ((textStore e).bind (fun t => t.texture)).bind
          (fun h => if texRes h then some h else none) with
       | some h => [⟨e, Layer.text, h⟩]
       | none => []) := by
  unfold elemCalls
  congr 1
  · rcases imageStore e with _ | img
    · rfl
    · by_cases ht : texRes img.texture <;> simp [ht]
  · rcases (textStore e).bind (fun t => t.texture) with _ | h
    · rfl
    · by_cases ht : texRes h <;> simp [ht]

/-! ## Claim theorems: C5 and C6 -/

/-- **C5**: when the shared unit-quad mesh resolves (with its vertex
buffer), emission issues exactly the per-element draw calls in the order
of the cache's ordered sequence — an image-layer call when a `UiImage`
with a resolved texture is present, then a text-layer call when a `UiText`
with a resolved cached texture is present, at most two calls per element,
and zero calls (not an error) when neither resolves. -/
theorem emit_in_cache_order (meshRes : Option Mesh) (texRes : TextureHandle → Bool)
    (imageStore : ℕ → Option UiImage) (textStore : ℕ → Option UiText)
    (st : TransStorage) (cache : List (FVal × ℕ)) (m : Mesh)
    (hm : meshRes = some m) (hv : m.vbuf = true)
    (htr : ∀ p ∈ cache, (lookupT st p.2).isSome) :
    emitFrame meshRes texRes imageStore textStore st cache =
      some (cache.flatMap (fun p => elemCalls texRes imageStore textStore p.2)) ∧
    (∀ e : ℕ, (elemCalls texRes imageStore textStore e).length ≤ 2) ∧
    (∀ e : ℕ, (∀ i, imageStore e = some i → texRes i.texture = false) →
      (∀ h, (textStore e).bind (fun t => t.texture) = some h → texRes h = false) →
      elemCalls texRes imageStore textStore e = []) := by
  subst hm
  refine ⟨?_, ?_, ?_⟩
  · induction cache with
    | nil => rfl
    | cons p rest ih =>
      have hl := htr p (List.mem_cons_self p rest)
      rcases hla : lookupT st p.2 with _ | t
      · rw [hla] at hl
        simp at hl
      · rw [emitFrame_cons, hla]
        simp only [hv, if_true]
        rw [ih (fun q hq => htr q (List.mem_cons_of_mem p hq))]
        rw [List.flatMap_cons, elemCalls_eq]
        simp [List.append_assoc]
  · intro e
    unfold elemCalls
    rw [List.length_append]
    have h1 : (match imageStore e with
        | some img => if texRes img.texture then [(⟨e, Layer.image, img.texture⟩ : DrawCall)] else []
        | none => []).length ≤ 1 := by
      rcases imageStore e with _ | img
      · simp
      · by_cases ht : texRes img.texture <;> simp [ht]
    have h2 : (match (textStore e).bind (fun t => t.texture) with
        | some h => if texRes h then [(⟨e, Layer.text, h⟩ : DrawCall)] else []
        | none => []).length ≤ 1 := by
      rcases (textStore e).bind (fun t => t.texture) with _ | h
      · simp
      · by_cases ht : texRes h <;> simp [ht]
    omega
  · intro e h1 h2
    unfold elemCalls
    rcases hi : imageStore e with _ | img
    · rcases ht : (textStore e).bind (fun t => t.texture) with _ | h
      · rfl
      · simp [h2 h ht]
    · rcases ht : (textStore e).bind (fun t => t.texture) with _ | h
      · simp [h1 img hi]
      · simp [h1 img hi, h2 h ht]

/-- **C6**: with the shared unit-quad mesh unresolved, the emission loop
returns after the first element: the frame issues no draw calls and does
not panic, and the frame's cache state is exactly the maintenance result,
identical to what a frame with any mesh status computes — so the next
frame retries from an uncorrupted state. -/
theorem mesh_unresolved_aborts_frame (c : CachedDrawOrder) (st : TransStorage)
    (texRes : TextureHandle → Bool) (imageStore : ℕ → Option UiImage)
    (textStore : ℕ → Option UiText) :
    (runDrawUiFrame c st none texRes imageStore textStore).2 = some [] ∧
    (∀ meshRes' : Option Mesh,
      (runDrawUiFrame c st meshRes' texRes imageStore textStore).1 = maintain c st) := by
  constructor
  · show emitFrame none texRes imageStore textStore st (maintain c st).cache = some []
    rcases hc : (maintain c st).cache with _ | ⟨p, rest⟩
    · rfl
    · have hl : (lookupT st p.2).isSome :=
        maintain_mem_keys (by rw [hc]; exact List.mem_cons_self p rest)
      rcases hla : lookupT st p.2 with _ | t
      · rw [hla] at hl
        simp at hl
      · rw [emitFrame_cons, hla]
  · intro meshRes'
    rfl

/-- Witness for C5: two elements in depth order; the first yields an
image-layer call then a text-layer call, the second (unresolved image
texture, no text) yields none. -/
theorem emit_in_cache_order_witness :
    emitFrame (some ⟨true⟩) texResEmit imageStoreEmit textStoreEmit stEmit
        [(FVal.val 5, 1), (FVal.val 3, 2)] =
      some [⟨1, Layer.image, 7⟩, ⟨1, Layer.text, 9⟩] := by
  have h := (emit_in_cache_order (some ⟨true⟩) texResEmit imageStoreEmit textStoreEmit
    stEmit [(FVal.val 5, 1), (FVal.val 3, 2)] ⟨true⟩ rfl rfl (by decide)).1
  rw [h]
  decide

/-! ## Helper lemmas: rounded products and zero products -/

theorem fmul_eq_val {w h : FVal} {q : ℚ} (hz : fmul w h = FVal.val q) :
    ∃ qw qh, w = FVal.val qw ∧ h = FVal.val qh ∧ qw * qh = q := by
  cases w with
  | nan =>
    exfalso
    cases h with
    | nan => exact FVal.noConfusion hz
    | val qh => exact FVal.noConfusion hz
  | val qw =>
    cases h with
    | nan => exact FVal.noConfusion hz
    | val qh =>
      refine ⟨qw, qh, rfl, rfl, ?_⟩
      unfold fmul at hz
      injection hz

theorem fmul32_of_val (a b : ℚ) :
    fmul32 (FVal.val a) (FVal.val b) = FVal.val (round32 (a * b)) := rfl

theorem round32_zero : round32 0 = 0 := by
  unfold round32
  rw [if_pos (show (0 : ℚ).num = 0 from rfl)]

/-! ## Helper lemmas: the rasterizer never writes out of bounds when the
guard rectangle fits the allocated buffer -/

theorem start_lt (wN hN L x y : ℕ) (hx : x < wN) (hy : y < hN)
    (hfit : 4 * (wN * hN) ≤ L) :
    (x + y * wN % 2 ^ 32) % 2 ^ 32 * 4 % 2 ^ 32 + 3 < L := by
  have hs : x + y * wN < wN * hN :=
    calc x + y * wN < wN + y * wN := Nat.add_lt_add_right hx _
      _ = (y + 1) * wN := by ring
      _ ≤ hN * wN := Nat.mul_le_mul_right wN (Nat.succ_le_of_lt hy)
      _ = wN * hN := Nat.mul_comm _ _
  have e1 : (x + y * wN % 2 ^ 32) % 2 ^ 32 * 4 % 2 ^ 32 = (x + y * wN) * 4 % 2 ^ 32 := by
    generalize y * wN = u
    omega
  rw [e1]
  generalize hxy : x + y * wN = s at hs
  generalize hp : wN * hN = p at hs hfit
  omega

theorem writeTexel_some (color : Color4) (wN hN posx : ℕ) (buf : List FVal)
    (px : ℕ × ℕ × FVal) (hfit : 4 * (wN * hN) ≤ buf.length) :
    ∃ buf', writeTexel color wN hN posx buf px = some buf' ∧ buf'.length = buf.length := by
  obtain ⟨x0, y, v⟩ := px
  dsimp only [writeTexel]
  by_cases hv : fgt v (FVal.val (1 / 100)) = true
  · rw [if_pos hv]
    by_cases hin : (x0 + posx) % 2 ^ 32 < wN ∧ y < hN
    · rw [if_pos hin]
      have hlt := start_lt wN hN buf.length ((x0 + posx) % 2 ^ 32) y hin.1 hin.2 hfit
      rw [if_pos hlt]
      exact ⟨_, rfl, by simp [List.length_set]⟩
    · rw [if_neg hin]
      exact ⟨buf, rfl, rfl⟩
  · rw [if_neg hv]
    exact ⟨buf, rfl, rfl⟩

theorem foldlM_writeTexel_some (color : Color4) (wN hN posx : ℕ) :
    ∀ (pxs : List (ℕ × ℕ × FVal)) (buf : List FVal), 4 * (wN * hN) ≤ buf.length →
      ∃ buf', pxs.foldlM (writeTexel color wN hN posx) buf = some buf' ∧
        buf'.length = buf.length
  | [], buf, _ => ⟨buf, rfl, rfl⟩
  | px :: rest, buf, hfit => by
    obtain ⟨buf1, h1, hl1⟩ := writeTexel_some color wN hN posx buf px hfit
    obtain ⟨buf', h2, hl2⟩ :=
      foldlM_writeTexel_some color wN hN posx rest buf1 (by rw [hl1]; exact hfit)
    refine ⟨buf', ?_, by rw [hl2, hl1]⟩
    rw [List.foldlM_cons, h1]
    simpa using h2

theorem foldlM_drawGlyph_some (color : Color4) (wN hN : ℕ) :
    ∀ (glyphs : List Glyph) (buf : List FVal), 4 * (wN * hN) ≤ buf.length →
      ∃ buf', glyphs.foldlM (drawGlyph color wN hN) buf = some buf' ∧
        buf'.length = buf.length
  | [], buf, _ => ⟨buf, rfl, rfl⟩
  | g :: rest, buf, hfit => by
    obtain ⟨buf1, h1, hl1⟩ :=
      foldlM_writeTexel_some color wN hN (sat32 g.posX) g.pixels buf hfit
    obtain ⟨buf', h2, hl2⟩ :=
      foldlM_drawGlyph_some color wN hN rest buf1 (by rw [hl1]; exact hfit)
    refine ⟨buf', ?_, by rw [hl2, hl1]⟩
    rw [List.foldlM_cons]
    show (drawGlyph color wN hN buf g) >>= _ = _
    rw [show drawGlyph color wN hN buf g = some buf1 from h1]
    simpa using h2

/-- Provided the truncated guard rectangle fits the allocated buffer
(`4 * trunc(width) * trunc(height) ≤ num_floats`), the rasterization core
always completes (no write panics) and returns a buffer of exactly
`numFloats` floats.  The condition is genuinely needed: the f32-rounded
product can make the allocation smaller than the rectangle the `u32`
guards admit (width = height = 4097), and the `usize` length computation
can wrap (width = height = 2^31). -/
theorem rasterize_some_of_fit (tr : UiTransform) (color : Color4)
    (fontSize : FVal) (txt : String) (font : FontAsset)
    (hfit : 4 * (sat32 tr.width * sat32 tr.height) ≤ numFloats tr) :
    ∃ buf, rasterize tr color fontSize txt font = some buf ∧ buf.length = numFloats tr := by
  unfold rasterize
  by_cases hgt : fgt color.c3 (FVal.val (1 / 100)) = true
  · rw [if_pos hgt]
    obtain ⟨buf, hfold, hl⟩ := foldlM_drawGlyph_some color (sat32 tr.width) (sat32 tr.height)
      (font.layout txt fontSize) (List.replicate (numFloats tr) (FVal.val 0))
      (by rw [List.length_replicate]; exact hfit)
    exact ⟨buf, hfold, by rw [hl, List.length_replicate]⟩
  · rw [if_neg hgt]
    exact ⟨_, rfl, by rw [List.length_replicate]⟩

/-! ## Claim theorems: C7 and C10 -/

/-- **C7**: a dirty `UiText` whose font asset has not resolved is skipped
by the rasterization pass with no error: the element (dirty flag, text,
color, font size, cached texture) and the loader are returned exactly
unchanged, and the element is still dirty, so every subsequent pass retries
it until the font resolves. -/
theorem dirty_text_font_unresolved_skipped
    (fontStore : FontHandle → Option FontAsset) (isComb : Char → Bool)
    (nfd : String → String) (tr : UiTransform) (t : UiText) (n : ℕ)
    (hd : t.dirty = true) (hf : fontStore t.font = none) :
    processElem fontStore isComb nfd tr t n = some (t, n) ∧ t.dirty = true := by
  unfold processElem
  rw [if_pos hd, hf]
  exact ⟨rfl, hd⟩

/-- Witness for C7: a freshly created text whose font never resolves is
returned untouched. -/
theorem dirty_text_font_unresolved_skipped_witness :
    processElem (fun _ => none) (fun _ => false) (fun s => s) trTen
        (UiText.new 5 "a" colorOpaque (FVal.val 12)) 0 =
      some (UiText.new 5 "a" colorOpaque (FVal.val 12), 0) :=
  (dirty_text_font_unresolved_skipped (fun _ => none) (fun _ => false) (fun s => s) trTen
    (UiText.new 5 "a" colorOpaque (FVal.val 12)) 0 rfl rfl).1

/-- **C10 (amended)**: provided the rectangle the guards admit fits the
allocated buffer — `4 * trunc(width) * trunc(height)` floats within
`num_floats = (width * height) as usize * 4` — every guarded buffer write
of the glyph rasterization loop is in bounds for any glyph coverage
callback output: the pass completes without an indexing panic and the
buffer keeps its allocated length.  The proviso can fail two ways (see
the counterexample): the `f32` product rounds below the exact product
(width = height = 4097), and the `usize` length computation wraps
(width = height = 2^31); in both, a guarded write panics. -/
theorem raster_writes_in_bounds (tr : UiTransform)
    (hfit : 4 * (sat32 tr.width * sat32 tr.height) ≤ numFloats tr) :
    ∀ (color : Color4) (fontSize : FVal) (txt : String) (font : FontAsset),
      (rasterize tr color fontSize txt font).isSome = true ∧
      ∀ buf, rasterize tr color fontSize txt font = some buf → buf.length = numFloats tr := by
  intro color fontSize txt font
  obtain ⟨buf, hbuf, hlen⟩ := rasterize_some_of_fit tr color fontSize txt font hfit
  refine ⟨by rw [hbuf]; rfl, ?_⟩
  intro buf' hbuf'
  rw [hbuf] at hbuf'
  injection hbuf' with he
  rw [← he]
  exact hlen

/-- Witness for C10 (amended) at a benign 10x10 transform. -/
theorem raster_writes_in_bounds_witness :
    (rasterize trTen colorOpaque (FVal.val 12) "a" fontDot).isSome = true :=
  (raster_writes_in_bounds trTen (by with_unfolding_all decide) colorOpaque
    (FVal.val 12) "a" fontDot).1

/-- Counterexample for C10 as stated, in two failure modes.  First, `f32`
rounding with no overflow anywhere: at width = height = 4097 the exact
product 16785409 rounds to 16785408 (ties to even above 2^24), so the
buffer holds 16785408 * 4 = 67141632 floats, yet the guards (x < 4097,
y < 4097) admit the pixel (4096, 4096), whose first channel sits at flat
index (4096 + 4096 * 4097) * 4 = 67141632 — the write indexes out of
bounds and the pass panics.  Second, `usize` wrap: at width = height =
2^31 the length computation wraps to 0, the buffer is empty, and the
guarded write of the origin pixel panics. -/
theorem raster_out_of_bounds_panic :
    rasterize trRound colorOpaque (FVal.val 12) "a" fontCorner = none ∧
    rasterize trOverflow colorOpaque (FVal.val 12) "a" fontDot = none := by
  refine ⟨?_, by with_unfolding_all decide⟩
  have hnum : numFloats trRound = 67141632 := by with_unfolding_all decide
  have hW : sat32 trRound.width = 4097 := by with_unfolding_all decide
  have hH : sat32 trRound.height = 4097 := by with_unfolding_all decide
  have hwrite : writeTexel colorOpaque 4097 4097 0
      (List.replicate (numFloats trRound) (FVal.val 0)) (4096, 4096, FVal.val 1) = none := by
    dsimp only [writeTexel]
    rw [if_pos (show fgt (FVal.val 1) (FVal.val (1 / 100)) = true from by
      with_unfolding_all decide)]
    rw [if_pos (show (4096 + 0) % 2 ^ 32 < 4097 ∧ 4096 < 4097 from by decide)]
    have hbound : ¬ (((4096 + 0) % 2 ^ 32 + 4096 * 4097 % 2 ^ 32) % 2 ^ 32 * 4 % 2 ^ 32 + 3 <
        (List.replicate (numFloats trRound) (FVal.val 0)).length) := by
      rw [List.length_replicate, hnum]
      decide
    rw [if_neg hbound]
  have hglyph : drawGlyph colorOpaque 4097 4097
      (List.replicate (numFloats trRound) (FVal.val 0))
      ⟨FVal.val 0, FVal.val 0, [(4096, 4096, FVal.val 1)]⟩ = none := by
    show [(4096, 4096, FVal.val 1)].foldlM (writeTexel colorOpaque 4097 4097
      (sat32 (FVal.val 0))) (List.replicate (numFloats trRound) (FVal.val 0)) = none
    rw [show sat32 (FVal.val 0) = 0 from rfl, List.foldlM_cons, hwrite]
    rfl
  unfold rasterize
  rw [if_pos (show fgt colorOpaque.c3 (FVal.val (1 / 100)) = true from by
    with_unfolding_all decide)]
  rw [hW, hH]
  rw [show fontCorner.layout "a" (FVal.val 12) =
    [⟨FVal.val 0, FVal.val 0, [(4096, 4096, FVal.val 1)]⟩] from rfl]
  rw [List.foldlM_cons]
  show (drawGlyph colorOpaque 4097 4097 _ _) >>= _ = none
  rw [hglyph]
  rfl

/-! ## Helper lemmas: processing a dirty element with a resolved font -/

theorem writeTexel_length (color : Color4) (wN hN posx : ℕ) (buf : List FVal)
    (px : ℕ × ℕ × FVal) (buf' : List FVal)
    (h : writeTexel color wN hN posx buf px = some buf') : buf'.length = buf.length := by
  obtain ⟨x0, y, v⟩ := px
  dsimp only [writeTexel] at h
  split at h
  · split at h
    · split at h
      · injection h with h
        rw [← h]
        simp [List.length_set]
      · cases h
    · injection h with h
      rw [← h]
  · injection h with h
    rw [← h]

theorem foldlM_writeTexel_length (color : Color4) (wN hN posx : ℕ) :
    ∀ (pxs : List (ℕ × ℕ × FVal)) (buf buf' : List FVal),
      pxs.foldlM (writeTexel color wN hN posx) buf = some buf' → buf'.length = buf.length
  | [], buf, buf', h => by
    rw [List.foldlM_nil] at h
    injection h with h
    rw [h]
  | px :: rest, buf, buf', h => by
    rw [List.foldlM_cons] at h
    rcases hw : writeTexel color wN hN posx buf px with _ | buf1
    · rw [hw] at h
      cases h
    · rw [hw] at h
      rw [foldlM_writeTexel_length color wN hN posx rest buf1 buf' h,
        writeTexel_length color wN hN posx buf px buf1 hw]

theorem foldlM_drawGlyph_length (color : Color4) (wN hN : ℕ) :
    ∀ (glyphs : List Glyph) (buf buf' : List FVal),
      glyphs.foldlM (drawGlyph color wN hN) buf = some buf' → buf'.length = buf.length
  | [], buf, buf', h => by
    rw [List.foldlM_nil] at h
    injection h with h
    rw [h]
  | g :: rest, buf, buf', h => by
    rw [List.foldlM_cons] at h
    rcases hw : drawGlyph color wN hN buf g with _ | buf1
    · rw [hw] at h
      cases h
    · rw [hw] at h
      rw [foldlM_drawGlyph_length color wN hN rest buf1 buf' h,
        foldlM_writeTexel_length color wN hN (sat32 g.posX) g.pixels buf buf1 hw]

theorem writeTexel_guard_out (color : Color4) (wN hN posx : ℕ) (buf : List FVal)
    (px : ℕ × ℕ × FVal) (h0 : wN = 0 ∨ hN = 0) :
    writeTexel color wN hN posx buf px = some buf := by
  obtain ⟨x0, y, v⟩ := px
  dsimp only [writeTexel]
  split
  · rw [if_neg ?_]
    rintro ⟨hx, hy⟩
    rcases h0 with rfl | rfl
    · exact Nat.not_lt_zero _ hx
    · exact Nat.not_lt_zero _ hy
  · rfl

theorem foldlM_writeTexel_guard_out (color : Color4) (wN hN posx : ℕ)
    (h0 : wN = 0 ∨ hN = 0) :
    ∀ (pxs : List (ℕ × ℕ × FVal)) (buf : List FVal),
      pxs.foldlM (writeTexel color wN hN posx) buf = some buf
  | [], _ => rfl
  | px :: rest, buf => by
    rw [List.foldlM_cons, writeTexel_guard_out color wN hN posx buf px h0]
    exact foldlM_writeTexel_guard_out color wN hN posx h0 rest buf

theorem foldlM_drawGlyph_guard_out (color : Color4) (wN hN : ℕ)
    (h0 : wN = 0 ∨ hN = 0) :
    ∀ (glyphs : List Glyph) (buf : List FVal),
      glyphs.foldlM (drawGlyph color wN hN) buf = some buf
  | [], _ => rfl
  | g :: rest, buf => by
    rw [List.foldlM_cons]
    show (drawGlyph color wN hN buf g) >>= _ = _
    rw [show drawGlyph color wN hN buf g = some buf from
      foldlM_writeTexel_guard_out color wN hN (sat32 g.posX) h0 g.pixels buf]
    exact foldlM_drawGlyph_guard_out color wN hN h0 rest buf

/-! ## Claim theorems: C9 -/

/-- **C9 (amended)**: the rasterizer allocates
`truncate(width * height) * 4` floats, all zero — the truncation applies to
the `f32` product, not to width and height separately as the claim words
it.  Any buffer the pass returns has exactly that length; an invisible
(alpha at or below 0.01) pass uploads it still all-zero without calling
layout; and a zero product (`width * height == 0`) yields a valid empty
buffer and never a failure. -/
theorem raster_buffer_size (tr : UiTransform) (color : Color4) (fontSize : FVal)
    (txt : String) (font : FontAsset) :
    (∀ buf, rasterize tr color fontSize txt font = some buf →
      buf.length = numFloats tr) ∧
    (fgt color.c3 (FVal.val (1 / 100)) = false →
      ∀ font' : FontAsset, rasterize tr color fontSize txt font' =
        some (List.replicate (numFloats tr) (FVal.val 0))) ∧
    (fmul tr.width tr.height = FVal.val 0 →
      rasterize tr color fontSize txt font = some []) := by
  refine ⟨?_, ?_, ?_⟩
  · intro buf h
    unfold rasterize at h
    split at h
    · have := foldlM_drawGlyph_length color (sat32 tr.width) (sat32 tr.height)
        (font.layout txt fontSize) (List.replicate (numFloats tr) (FVal.val 0)) buf h
      rw [this, List.length_replicate]
    · injection h with h
      rw [← h, List.length_replicate]
  · intro hfa font'
    unfold rasterize
    rw [if_neg (by rw [hfa]; exact Bool.false_ne_true)]
  · intro hzero
    obtain ⟨qw, qh, hw, hh, hq⟩ := fmul_eq_val hzero
    have hnum : numFloats tr = 0 := by
      unfold numFloats
      rw [hw, hh, fmul32_of_val, hq, round32_zero]
      rw [show sat64 (FVal.val 0) = 0 from rfl]
      rfl
    have h0 : sat32 tr.width = 0 ∨ sat32 tr.height = 0 := by
      rcases mul_eq_zero.mp hq with h1 | h1
      · left
        rw [hw, h1, show sat32 (FVal.val 0) = 0 from rfl]
      · right
        rw [hh, h1, show sat32 (FVal.val 0) = 0 from rfl]
    unfold rasterize
    rw [hnum]
    split
    · exact foldlM_drawGlyph_guard_out color _ _ h0 _ _
    · rfl

/-- Counterexample for C9 as stated: at width 1.5, height 2 the code
allocates `trunc(1.5 * 2) * 4 = 12` floats, while truncating width and
height separately as the claim states would give `1 * 2` texels, i.e. 8
floats. -/
theorem raster_buffer_size_counterexample :
    (rasterize trFrac colorClear (FVal.val 12) "" fontEmpty).map List.length = some 12 ∧
    numFloats trFrac = 12 ∧ numFloatsClaim trFrac = 8 := by
  with_unfolding_all decide

/-- Witness for C9 (amended): the invisible pass at the fractional
transform uploads twelve zero floats. -/
theorem raster_buffer_size_witness :
    rasterize trFrac colorClear (FVal.val 12) "" fontEmpty =
      some (List.replicate 12 (FVal.val 0)) := by
  have h := (raster_buffer_size trFrac colorClear (FVal.val 12) "" fontEmpty).2.1
    (by with_unfolding_all decide) fontEmpty
  rw [h]
  with_unfolding_all decide

/-! ## Helper lemmas: flattening the glyph loop (C4) -/

theorem getD_set_self (l : List FVal) (i : ℕ) (a d : FVal) (h : i < l.length) :
    (l.set i a).getD i d = a := by
  simp [List.getD, List.getElem?_set, h]

theorem getD_set_ne (l : List FVal) (i j : ℕ) (a d : FVal) (h : i ≠ j) :
    (l.set i a).getD j d = l.getD j d := by
  simp [List.getD, List.getElem?_set, h]

theorem getD_replicate (n : ℕ) (a d : FVal) (i : ℕ) (h : i < n) :
    (List.replicate n a).getD i d = a := by
  simp [List.getD, h]

theorem writeTexel_eq_abs (color : Color4) (wN hN posx : ℕ) (buf : List FVal)
    (px : ℕ × ℕ × FVal) :
    writeTexel color wN hN posx buf px =
      writeTexelAbs color wN hN buf ((px.1 + posx) % 2 ^ 32, px.2.1, px.2.2) := by
  obtain ⟨x0, y, v⟩ := px
  dsimp only [writeTexel, writeTexelAbs]
  have hx : ((x0 + posx) % 2 ^ 32 + 0) % 2 ^ 32 = (x0 + posx) % 2 ^ 32 := by omega
  rw [hx]

theorem drawGlyph_eq_flat (color : Color4) (wN hN : ℕ) (g : Glyph) (buf : List FVal) :
    drawGlyph color wN hN buf g =
      (g.pixels.map (fun px => ((px.1 + sat32 g.posX) % 2 ^ 32, px.2.1, px.2.2))).foldlM
        (writeTexelAbs color wN hN) buf := by
  unfold drawGlyph
  rw [List.foldlM_map]
  have hf : writeTexel color wN hN (sat32 g.posX) =
      fun acc px =>
        writeTexelAbs color wN hN acc ((px.1 + sat32 g.posX) % 2 ^ 32, px.2.1, px.2.2) := by
    funext acc px
    exact writeTexel_eq_abs color wN hN (sat32 g.posX) acc px
  rw [hf]

theorem foldlM_glyphs_eq_flat (color : Color4) (wN hN : ℕ) :
    ∀ (glyphs : List Glyph) (buf : List FVal),
      glyphs.foldlM (drawGlyph color wN hN) buf =
        (glyphWrites glyphs).foldlM (writeTexelAbs color wN hN) buf
  | [], _ => rfl
  | g :: rest, buf => by
    rw [List.foldlM_cons]
    unfold glyphWrites
    rw [List.flatMap_cons, List.foldlM_append]
    rw [show (drawGlyph color wN hN buf g : Option (List FVal)) =
      (g.pixels.map (fun px => ((px.1 + sat32 g.posX) % 2 ^ 32, px.2.1, px.2.2))).foldlM
        (writeTexelAbs color wN hN) buf from drawGlyph_eq_flat color wN hN g buf]
    have hcont : (fun b => rest.foldlM (drawGlyph color wN hN) b) =
        fun b => (glyphWrites rest).foldlM (writeTexelAbs color wN hN) b :=
      funext (fun b => foldlM_glyphs_eq_flat color wN hN rest b)
    show _ >>= (fun b => rest.foldlM (drawGlyph color wN hN) b) = _
    rw [hcont]
    rfl

theorem glyphWrites_lt (glyphs : List Glyph) : ∀ w ∈ glyphWrites glyphs, w.1 < 2 ^ 32 := by
  intro w hw
  unfold glyphWrites at hw
  rcases List.mem_flatMap.mp hw with ⟨g, hg, hm⟩
  rcases List.mem_map.mp hm with ⟨px, hpx, he⟩
  rw [← he]
  exact Nat.mod_lt _ (by decide)

theorem texel_index_lt (wN hN x y : ℕ) (hx : x < wN) (hy : y < hN) :
    x + y * wN < wN * hN := by
  have h2 : y * wN + wN ≤ hN * wN := by
    have h := Nat.mul_le_mul_right wN (Nat.succ_le_of_lt hy)
    rwa [Nat.succ_mul] at h
  have h3 : hN * wN = wN * hN := Nat.mul_comm hN wN
  omega

theorem texel_index_inj (wN x y x' y' : ℕ) (hx : x < wN) (hx' : x' < wN)
    (hne : ¬(x = x' ∧ y = y')) : x + y * wN ≠ x' + y' * wN := by
  have h2 : ∀ a b : ℕ, a < b → a * wN + wN ≤ b * wN := by
    intro a b hab
    have h := Nat.mul_le_mul_right wN (Nat.succ_le_of_lt hab)
    rwa [Nat.succ_mul] at h
  rcases Nat.lt_trichotomy y y' with hlt | heq | hgt
  · have := h2 y y' hlt
    omega
  · subst heq
    have hxx : x ≠ x' := fun h => hne ⟨h, rfl⟩
    omega
  · have := h2 y' y hgt
    omega

theorem start_eq_small (wN hN x y : ℕ) (hx : x < wN) (hy : y < hN)
    (hWH : wN * hN ≤ 2 ^ 30) :
    (x + y * wN % 2 ^ 32) % 2 ^ 32 * 4 % 2 ^ 32 = 4 * (x + y * wN) := by
  have hs : x + y * wN < 2 ^ 30 := lt_of_lt_of_le (texel_index_lt wN hN x y hx hy) hWH
  have e1 : (x + y * wN % 2 ^ 32) % 2 ^ 32 * 4 % 2 ^ 32 = (x + y * wN) * 4 % 2 ^ 32 := by
    generalize y * wN = u
    omega
  rw [e1]
  generalize x + y * wN = s at hs
  omega

theorem writeTexelAbs_eval (color : Color4) (wN hN : ℕ) (buf : List FVal)
    (xw yw : ℕ) (v : FVal) (hxw : xw < 2 ^ 32) :
    writeTexelAbs color wN hN buf (xw, yw, v) =
      if fgt v (FVal.val (1 / 100)) = true then
        if xw < wN ∧ yw < hN then
          if (xw + yw * wN % 2 ^ 32) % 2 ^ 32 * 4 % 2 ^ 32 + 3 < buf.length then
            some ((((buf.set ((xw + yw * wN % 2 ^ 32) % 2 ^ 32 * 4 % 2 ^ 32) color.c0).set
              ((xw + yw * wN % 2 ^ 32) % 2 ^ 32 * 4 % 2 ^ 32 + 1) color.c1).set
              ((xw + yw * wN % 2 ^ 32) % 2 ^ 32 * 4 % 2 ^ 32 + 2) color.c2).set
              ((xw + yw * wN % 2 ^ 32) % 2 ^ 32 * 4 % 2 ^ 32 + 3) (fmul32 color.c3 v))
          else none
        else some buf
      else some buf := by
  dsimp only [writeTexelAbs, writeTexel]
  rw [show (xw + 0) % 2 ^ 32 = xw from by omega]

theorem covLast_cons (w : ℕ × ℕ × FVal) (ws : List (ℕ × ℕ × FVal)) (x y : ℕ) :
    covLast (w :: ws) x y =
      if w.1 = x ∧ w.2.1 = y ∧ fgt w.2.2 (FVal.val (1 / 100)) = true then
        some ((covLast ws x y).getD w.2.2)
      else covLast ws x y := by
  unfold covLast
  rw [List.filterMap_cons]
  by_cases hc : w.1 = x ∧ w.2.1 = y ∧ fgt w.2.2 (FVal.val (1 / 100)) = true
  · rw [if_pos hc]
    dsimp only
    rw [if_pos hc, List.getLast?_cons]
  · rw [if_neg hc]
    dsimp only
    rw [if_neg hc]

theorem getD_set4_other (buf : List FVal) (s i : ℕ) (a0 a1 a2 a3 d : FVal)
    (h : i < s ∨ s + 3 < i) :
    ((((buf.set s a0).set (s + 1) a1).set (s + 2) a2).set (s + 3) a3).getD i d =
      buf.getD i d := by
  rw [getD_set_ne _ _ _ _ _ (by omega), getD_set_ne _ _ _ _ _ (by omega),
    getD_set_ne _ _ _ _ _ (by omega), getD_set_ne _ _ _ _ _ (by omega)]

theorem getD_set4_self (buf : List FVal) (s : ℕ) (a0 a1 a2 a3 d : FVal)
    (h : s + 3 < buf.length) :
    (((((buf.set s a0).set (s + 1) a1).set (s + 2) a2).set (s + 3) a3).getD s d = a0) ∧
    (((((buf.set s a0).set (s + 1) a1).set (s + 2) a2).set (s + 3) a3).getD (s + 1) d = a1) ∧
    (((((buf.set s a0).set (s + 1) a1).set (s + 2) a2).set (s + 3) a3).getD (s + 2) d = a2) ∧
    (((((buf.set s a0).set (s + 1) a1).set (s + 2) a2).set (s + 3) a3).getD (s + 3) d = a3) := by
  refine ⟨?_, ?_, ?_, ?_⟩
  · rw [getD_set_ne _ _ _ _ _ (by omega), getD_set_ne _ _ _ _ _ (by omega),
      getD_set_ne _ _ _ _ _ (by omega), getD_set_self _ _ _ _ (by omega)]
  · rw [getD_set_ne _ _ _ _ _ (by omega), getD_set_ne _ _ _ _ _ (by omega),
      getD_set_self _ _ _ _ (by simp [List.length_set]; omega)]
  · rw [getD_set_ne _ _ _ _ _ (by omega),
      getD_set_self _ _ _ _ (by simp [List.length_set]; omega)]
  · rw [getD_set_self _ _ _ _ (by simp [List.length_set]; omega)]

theorem flat_fold_char (color : Color4) (wN hN : ℕ) (hWH : wN * hN ≤ 2 ^ 30) :
    ∀ (ws : List (ℕ × ℕ × FVal)) (buf : List FVal),
      (∀ w ∈ ws, w.1 < 2 ^ 32) →
      4 * (wN * hN) ≤ buf.length →
      ∃ buf', ws.foldlM (writeTexelAbs color wN hN) buf = some buf' ∧
        buf'.length = buf.length ∧
        ∀ x y, x < wN → y < hN →
          texelRGBA buf' wN x y =
            (match covLast ws x y with
             | some v => (color.c0, color.c1, color.c2, fmul32 color.c3 v)
             | none => texelRGBA buf wN x y)
  | [], buf, _, _ =>
    ⟨buf, rfl, rfl, fun x y _ _ => by rw [show covLast [] x y = none from rfl]⟩
  | w :: rest, buf, hws, hlen => by
    obtain ⟨xw, yw, v⟩ := w
    have hxw : xw < 2 ^ 32 := by
      simpa using hws (xw, yw, v) (List.mem_cons_self _ _)
    have hwst : ∀ u ∈ rest, u.1 < 2 ^ 32 :=
      fun u hu => hws u (List.mem_cons_of_mem _ hu)
    rw [List.foldlM_cons, writeTexelAbs_eval color wN hN buf xw yw v hxw]
    by_cases hv : fgt v (FVal.val (1 / 100)) = true
    · rw [if_pos hv]
      by_cases hin : xw < wN ∧ yw < hN
      · have hstart := start_eq_small wN hN xw yw hin.1 hin.2 hWH
        rw [if_pos hin, hstart]
        have hs0 : xw + yw * wN < wN * hN := texel_index_lt wN hN xw yw hin.1 hin.2
        have hbound : 4 * (xw + yw * wN) + 3 < buf.length := by
          generalize hq : xw + yw * wN = s at hs0
          generalize hp : wN * hN = p at hs0 hlen
          omega
        rw [if_pos hbound]
        obtain ⟨buf', h1, h2, h3⟩ := flat_fold_char color wN hN hWH rest
          ((((buf.set (4 * (xw + yw * wN)) color.c0).set
            (4 * (xw + yw * wN) + 1) color.c1).set
            (4 * (xw + yw * wN) + 2) color.c2).set
            (4 * (xw + yw * wN) + 3) (fmul32 color.c3 v))
          hwst (by simp [List.length_set]; exact hlen)
        refine ⟨buf', by simpa using h1, by rw [h2]; simp [List.length_set], ?_⟩
        intro x y hx hy
        rw [covLast_cons]
        by_cases hxy : xw = x ∧ yw = y
        · obtain ⟨rfl, rfl⟩ := hxy
          rw [if_pos ⟨rfl, rfl, hv⟩]
          rw [h3 xw yw hx hy]
          have hself := getD_set4_self buf (4 * (xw + yw * wN)) color.c0 color.c1 color.c2
            (fmul32 color.c3 v) (FVal.val 0) hbound
          rcases hcl : covLast rest xw yw with _ | v'
          · dsimp only [Option.getD]
            unfold texelRGBA
            rw [hself.1, hself.2.1, hself.2.2.1, hself.2.2.2]
          · rfl
        · rw [if_neg (by rintro ⟨ha, hb, -⟩; exact hxy ⟨ha, hb⟩)]
          rw [h3 x y hx hy]
          rcases hcl : covLast rest x y with _ | v'
          · have hne : x + y * wN ≠ xw + yw * wN :=
              texel_index_inj wN x y xw yw hx hin.1
                (fun hh => hxy ⟨hh.1.symm, hh.2.symm⟩)
            have hsep : ∀ k, k < 4 →
                4 * (x + y * wN) + k < 4 * (xw + yw * wN) ∨
                4 * (xw + yw * wN) + 3 < 4 * (x + y * wN) + k := by
              intro k hk
              generalize x + y * wN = q at hne ⊢
              generalize xw + yw * wN = s at hne ⊢
              omega
            unfold texelRGBA
            rw [show (4 * (x + y * wN) : ℕ) = 4 * (x + y * wN) + 0 from by omega]
            rw [getD_set4_other _ _ _ _ _ _ _ _ (hsep 0 (by omega)),
              getD_set4_other _ _ _ _ _ _ _ _ (hsep 1 (by omega)),
              getD_set4_other _ _ _ _ _ _ _ _ (hsep 2 (by omega)),
              getD_set4_other _ _ _ _ _ _ _ _ (hsep 3 (by omega))]
          · rfl
      · rw [if_neg hin]
        obtain ⟨buf', h1, h2, h3⟩ := flat_fold_char color wN hN hWH rest buf hwst hlen
        refine ⟨buf', by simpa using h1, h2, ?_⟩
        intro x y hx hy
        rw [covLast_cons, if_neg ?_]
        · exact h3 x y hx hy
        · rintro ⟨rfl, rfl, -⟩
          exact hin ⟨hx, hy⟩
    · rw [if_neg hv]
      obtain ⟨buf', h1, h2, h3⟩ := flat_fold_char color wN hN hWH rest buf hwst hlen
      refine ⟨buf', by simpa using h1, h2, ?_⟩
      intro x y hx hy
      rw [covLast_cons, if_neg (by rintro ⟨-, -, hvv⟩; exact hv hvv)]
      exact h3 x y hx hy

/-! ## Claim theorems: C4 -/

/-- **C4 (amended)**: for a processed element, if the alpha channel is at
or below 0.01 no glyph layout is consulted (any font yields the same
result) and the all-zero buffer is produced; if alpha exceeds 0.01 then —
for bounded dimensions (`trunc(width) * trunc(height) ≤ 2^30`, which keeps
the `u32` index arithmetic exact) whose guard rectangle fits the allocated
buffer (`4 * trunc(width) * trunc(height) ≤ num_floats`; the f32-rounded
product can allocate less, see C10) — the pass completes, and every texel
holds the last visible write at that texel: `color[0..3]` in RGB and
`color[3] * v` in alpha for the final coverage `v` deposited there,
overwriting earlier glyphs' writes, and zero where no glyph wrote.  The
write position adds the glyph position to the local offset on the x axis
only; the glyph's y position is ignored (the claim's "both axes" wording
fails, see the counterexample). -/
theorem raster_glyph_blit (tr : UiTransform) (color : Color4) (fontSize : FVal)
    (txt : String) (font : FontAsset) :
    (fgt color.c3 (FVal.val (1 / 100)) = false →
      ∀ font' : FontAsset, rasterize tr color fontSize txt font' =
        some (List.replicate (numFloats tr) (FVal.val 0))) ∧
    (fgt color.c3 (FVal.val (1 / 100)) = true →
      sat32 tr.width * sat32 tr.height ≤ 2 ^ 30 →
      4 * (sat32 tr.width * sat32 tr.height) ≤ numFloats tr →
      ∃ buf, rasterize tr color fontSize txt font = some buf ∧
        ∀ x y, x < sat32 tr.width → y < sat32 tr.height →
          texelRGBA buf (sat32 tr.width) x y =
            (match lastCoverage (font.layout txt fontSize) x y with
             | some v => (color.c0, color.c1, color.c2, fmul32 color.c3 v)
             | none => (FVal.val 0, FVal.val 0, FVal.val 0, FVal.val 0))) := by
  constructor
  · intro hfa font'
    unfold rasterize
    rw [if_neg (by rw [hfa]; exact Bool.false_ne_true)]
  · intro hfa hdim hfit
    unfold rasterize
    rw [if_pos hfa, foldlM_glyphs_eq_flat]
    obtain ⟨buf, h1, _, h3⟩ := flat_fold_char color (sat32 tr.width) (sat32 tr.height) hdim
      (glyphWrites (font.layout txt fontSize)) (List.replicate (numFloats tr) (FVal.val 0))
      (glyphWrites_lt _) (by rw [List.length_replicate]; exact hfit)
    refine ⟨buf, h1, ?_⟩
    intro x y hx hy
    rw [h3 x y hx hy]
    unfold lastCoverage
    rcases hcl : covLast (glyphWrites (font.layout txt fontSize)) x y with _ | v
    · have hidx : 4 * (x + y * sat32 tr.width) + 3 < numFloats tr := by
        have ha := texel_index_lt (sat32 tr.width) (sat32 tr.height) x y hx hy
        generalize x + y * sat32 tr.width = q at ha
        generalize sat32 tr.width * sat32 tr.height = p at ha hfit
        omega
      unfold texelRGBA
      rw [getD_replicate _ _ _ _ (by omega), getD_replicate _ _ _ _ (by omega),
        getD_replicate _ _ _ _ (by omega), getD_replicate _ _ _ _ hidx]
    · rfl

set_option maxRecDepth 100000 in
/-- Counterexample for C4 as stated: one glyph positioned at y = 5 whose
callback covers its local origin pixel.  The code writes texel (0, 0) —
the alpha at flat index 3 is 1 and the alpha of texel (0, 5) at flat index
203 is 0 — while the spec's both-axes wording (`rasterizeSpec`) writes
texel (0, 5) instead, so the two disagree. -/
theorem raster_y_offset_counterexample :
    (rasterize trTen colorOpaque (FVal.val 12) "a" fontShifted).map
      (fun b => (b.getD 3 (FVal.val 0), b.getD 203 (FVal.val 0))) =
        some (FVal.val 1, FVal.val 0) ∧
    (rasterizeSpec trTen colorOpaque (FVal.val 12) "a" fontShifted).map
      (fun b => (b.getD 3 (FVal.val 0), b.getD 203 (FVal.val 0))) =
        some (FVal.val 0, FVal.val 1) ∧
    rasterize trTen colorOpaque (FVal.val 12) "a" fontShifted ≠
      rasterizeSpec trTen colorOpaque (FVal.val 12) "a" fontShifted := by
  with_unfolding_all decide

/-- Witness for C4 (amended): the origin glyph dot lands at texel (0, 0)
with full alpha. -/
theorem raster_glyph_blit_witness :
    (rasterize trTen colorOpaque (FVal.val 12) "a" fontDot).map
      (fun b => texelRGBA b (sat32 trTen.width) 0 0) =
        some (FVal.val 1, FVal.val 1, FVal.val 1, fmul32 (FVal.val 1) (FVal.val 1)) := by
  obtain ⟨buf, hbuf, hchar⟩ :=
    (raster_glyph_blit trTen colorOpaque (FVal.val 12) "a" fontDot).2
      (by with_unfolding_all decide) (by with_unfolding_all decide)
      (by with_unfolding_all decide)
  rw [hbuf, Option.map_some']
  have h := hchar 0 0 (by with_unfolding_all decide) (by with_unfolding_all decide)
  rw [h, show lastCoverage (fontDot.layout "a" (FVal.val 12)) 0 0 = some (FVal.val 1) from
    by with_unfolding_all decide]
  rfl
